import Mathlib

/-!
Verification development for the ChatRAG ingestion and citation pipeline.

The embedding covers the two source files:
  * `complete_pipeline.py` — `s3_json_load_ingest`: classification-based
    accessibility labelling, JSON shape normalisation, turn flattening,
    chunking, and chunk-id assignment;
  * `search_wrapper.py` — `RAGCitationEngine`: the retrieval filter and
    `_extract_references` citation extraction.

JSON values are modelled by an inductive type `JValue`; Python `dict`s
appear as association lists in insertion order, Python numbers as rationals.
Paths on which the Python code raises an exception that is caught by the
surrounding `try`/`except` (which makes the whole ingestion call return
`[]`) are modelled with `Except Unit`.
-/

namespace ChatRAG

/-- A parsed JSON value.  Python dicts are association lists in insertion
order (keys of objects produced by `json.loads` are unique); numbers are
modelled as rationals. -/
inductive JValue where
  | null
  | bool (b : Bool)
  | num (q : ℚ)
  | str (s : String)
  | arr (xs : List JValue)
  | obj (fields : List (String × JValue))

/-- Association-list lookup, the model of Python's `d[k]` / `k in d` on a
dict: returns the value stored under the first occurrence of the key. -/
def jget (k : String) : List (String × JValue) → Option JValue
  | [] => none
  | (k', v) :: rest => if k' = k then some v else jget k rest

/-- Model of Python's `d.get(k, default)`: the default is used exactly when
the key is absent. -/
def jgetD (k : String) (d : JValue) (m : List (String × JValue)) : JValue :=
  match jget k m with
  | some v => v
  | none => d

/-- One category of the classification lambda's response body
(`{name, probability}`). -/
structure Category where
  name : String
  probability : ℚ

/-- The fields of a well-formed truthy lambda response that
`s3_json_load_ingest` reads (`lambda_response["body"]["category_one"]` and
`["category_two"]`).  `invoke_lambda` returning `None` (or a falsy payload)
is modelled by `Option LambdaResponse = none` at the `ingest` entry point;
a truthy but malformed payload raises an uncaught `KeyError` in the source
and is outside this model. -/
structure LambdaResponse where
  category_one : Category
  category_two : Category

/-- The constant `0.9` of the accessibility comparison, written as an
explicitly reduced rational (`9/10` in lowest terms) so that concrete
comparisons evaluate inside the kernel; `workThreshold_eq` identifies it
with `9/10`. -/
def workThreshold : ℚ := Rat.mk' 9 10 (by norm_num) (by norm_num)

theorem workThreshold_eq : workThreshold = 9 / 10 := by
  rw [workThreshold, Rat.mk'_eq_divInt]
  norm_num [Rat.divInt_eq_div]

/-- The accessibility decision of `s3_json_load_ingest` (lines 54-60):
`if category_two["probability"] >= 0.9` then label `"work"` with the
probability itself as confidence, else `"personal"` with `1 - probability`. -/
def accessDecision (r : LambdaResponse) : String × ℚ :=
  if workThreshold ≤ r.category_two.probability then
    ("work", r.category_two.probability)
  else
    ("personal", 1 - r.category_two.probability)

/-- The JSON shape normaliser (lines 83-99): a dict containing `"messages"`
is wrapped as a one-element chat list; else a dict containing `"data"`
contributes that key's value; else a list is used directly; any other shape
is unrecognised (`none`, the source prints a message and returns `[]`). -/
def normalizeChats : JValue → Option JValue
  | .obj fields =>
    if (jget "messages" fields).isSome then some (.arr [.obj fields])
    else
      match jget "data" fields with
      | some v => some v
      | none => none
  | .arr xs => some (.arr xs)
  | _ => none

/-- Model of iterating a JSON value with a Python `for` loop whose body
calls `.get` on each element (both the chat loop and the message loop do).
Lists yield their elements.  Iterating a non-empty string yields one-char
strings and iterating a non-empty dict yields its keys; in both cases the
loop body's `.get` then raises `AttributeError`, so these collapse to the
error path, as do non-iterable values (`TypeError`).  Empty strings and
empty dicts iterate zero times. -/
def iterPy : JValue → Except Unit (List JValue)
  | .arr xs => .ok xs
  | .str s => if s = "" then .ok [] else .error ()
  | .obj [] => .ok []
  | _ => .error ()

/-- Model of `content = msg.get("message") or ""` (line 110) combined with
the later `splitter.split_text(d.page_content or "")`: a missing key or a
falsy value (including the empty string) becomes `""`; a truthy string is
kept; a truthy non-string value is carried into `split_text`, which raises
there — collapsed here to the error path, with the same `[]` overall
result. -/
def contentOf : Option JValue → Except Unit String
  | none => .ok ""
  | some v =>
    match v with
    | .null => .ok ""
    | .bool false => .ok ""
    | .bool true => .error ()
    | .num q => if q = 0 then .ok "" else .error ()
    | .str s => .ok s
    | .arr [] => .ok ""
    | .arr (_ :: _) => .error ()
    | .obj [] => .ok ""
    | .obj (_ :: _) => .error ()

/-- A langchain `Document`: page content plus metadata dict. -/
structure Doc where
  page_content : String
  metadata : List (String × JValue)

/-- The environment defaults read by the metadata construction:
`os.getenv("CHAT_ENGINE")` and `os.getenv('CHAT_USER')` (a string, or
`None` when unset). -/
structure Config where
  chatEngine : JValue
  chatUser : JValue

/-- The per-turn metadata dict built at lines 113-124, in insertion order.
Note the source stores the chat's `chat_user` value under the key
`"chat_account"`; no key `"chat_user"` is ever written. -/
def mkMeta (cfg : Config) (acc : String × ℚ) (chat mf : List (String × JValue)) :
    List (String × JValue) :=
  [ ("chat_engine", jgetD "chat_engine" cfg.chatEngine chat),
    ("chat_account", jgetD "chat_user" cfg.chatUser chat),
    ("chat_id", jgetD "chat_id" .null chat),
    ("title", jgetD "title" .null chat),
    ("chat_creation_time", jgetD "chat_creation_time" .null chat),
    ("turn_id", jgetD "turn_id" .null mf),
    ("author", jgetD "author" .null mf),
    ("turn_timestamp", jgetD "turn_timestamp" .null mf),
    ("accessibility", .str acc.1),
    ("accessibility_confidence_score", .num acc.2) ]

/-- Build the `Document` for one message of a chat (lines 109-126).  A
message that is not a dict makes `msg.get` raise. -/
def msgDoc (cfg : Config) (acc : String × ℚ) (chat : List (String × JValue)) :
    JValue → Except Unit Doc
  | .obj mf =>
    match contentOf (jget "message" mf) with
    | .error e => .error e
    | .ok content => .ok { page_content := content, metadata := mkMeta cfg acc chat mf }
  | _ => .error ()

/-- The inner `for msg in chat["messages"]` loop. -/
def msgsGo (cfg : Config) (acc : String × ℚ) (chat : List (String × JValue)) :
    List JValue → Except Unit (List Doc)
  | [] => .ok []
  | m :: ms =>
    match msgDoc cfg acc chat m with
    | .error e => .error e
    | .ok d =>
      match msgsGo cfg acc chat ms with
      | .error e => .error e
      | .ok rest => .ok (d :: rest)

/-- Documents contributed by one chat record (lines 104-126): a dict
without a `"messages"` key is skipped (`continue`); a non-dict chat record
raises (`TypeError` at `"messages" not in chat` for non-container values,
or `AttributeError`/`TypeError` at `chat.get` / `chat["messages"]`
otherwise). -/
def chatDocs (cfg : Config) (acc : String × ℚ) : JValue → Except Unit (List Doc)
  | .obj fields =>
    match jget "messages" fields with
    | none => .ok []
    | some v =>
      match iterPy v with
      | .error e => .error e
      | .ok ms => msgsGo cfg acc fields ms
  | _ => .error ()

/-- The outer `for chat in chats` loop, flattening all chats into the
`docs` list. -/
def buildDocsGo (cfg : Config) (acc : String × ℚ) : List JValue → Except Unit (List Doc)
  | [] => .ok []
  | c :: cs =>
    match chatDocs cfg acc c with
    | .error e => .error e
    | .ok ds =>
      match buildDocsGo cfg acc cs with
      | .error e => .error e
      | .ok rest => .ok (ds ++ rest)

/-- Number of turns a chat record contributes when it carries a `messages`
collection (0 for skipped or invalid records). -/
def turnCount : JValue → Nat
  | .obj fields =>
    match jget "messages" fields with
    | none => 0
    | some v =>
      match iterPy v with
      | .ok ms => ms.length
      | .error _ => 0
  | _ => 0

/-- Longest-prefix check used by the separator scanner (`leadsWith p l`
holds when `l` starts with `p`). -/
def leadsWith : List Char → List Char → Bool
  | [], _ => true
  | _ :: _, [] => false
  | a :: as, b :: bs => a == b && leadsWith as bs

/-- Modelled from the spec: the chunker of §4.3.  The splitter class
(`RecursiveCharacterTextSplitter` from `langchain_text_splitters`,
configured at lines 135-139) is external library code not present in
`src/`, so the splitting algorithm is modelled from the spec's
description. `splitKeepGo` splits a text at every non-overlapping
occurrence of a non-empty separator, scanning left to right; all pieces
(including empty ones) are kept, so that rejoining the pieces with the
separator reconstructs the text.  `fuel` bounds the recursion; with
`fuel = text.length` it never runs out. -/
def splitKeepGo (sep : List Char) : Nat → List Char → List Char → List (List Char)
  | _, acc, [] => [acc.reverse]
  | 0, acc, rest => [acc.reverse ++ rest]
  | fuel + 1, acc, c :: cs =>
    if leadsWith sep (c :: cs) then
      acc.reverse :: splitKeepGo sep fuel [] (List.drop sep.length (c :: cs))
    else
      splitKeepGo sep fuel (c :: acc) cs

/-- Modelled from the spec: split a text on one separator; the empty
separator (the final, character-boundary strategy of §4.3) splits into
single characters. -/
def splitKeep (sep text : List Char) : List (List Char) :=
  match sep with
  | [] => text.map (fun c => [c])
  | _ :: _ => splitKeepGo sep text.length [] text

/-- Join pieces back with a separator between adjacent pieces. -/
def joinSep (sep : List Char) : List (List Char) → List Char
  | [] => []
  | [p] => p
  | p :: ps => p ++ sep ++ joinSep sep ps

/-- Modelled from the spec: §4.3 "concatenate adjacent small pieces up to
`chunk_size` before cutting, inserting `chunk_overlap` characters of
trailing context from the previous piece at the start of the next whenever
a new segment boundary is created, except for the very first segment".
`nextCur` computes the start of the segment that follows an emitted
segment `cur`: up to `overlap` trailing characters of `cur` (capped so
that the new segment still fits within `chunkSize`), joined to the next
piece `p`. -/
def nextCur (chunkSize overlap : Nat) (sep cur p : List Char) : List Char :=
  let keep := min overlap (chunkSize - p.length - sep.length)
  let retained := cur.drop (cur.length - keep)
  if retained.isEmpty then p else retained ++ sep ++ p

/-- Modelled from the spec: the merge loop; `cur` is the segment being
accumulated; a piece is appended (joined with the separator) while the
result stays within `chunkSize`, otherwise the segment is emitted and the
next one starts with `nextCur`'s overlap context. -/
def mergeGo (chunkSize overlap : Nat) (sep : List Char) (cur : List Char) :
    List (List Char) → List (List Char)
  | [] => [cur]
  | p :: ps =>
    if (cur ++ sep ++ p).length ≤ chunkSize then
      mergeGo chunkSize overlap sep (cur ++ sep ++ p) ps
    else
      cur :: mergeGo chunkSize overlap sep (nextCur chunkSize overlap sep cur p) ps

/-- Merge a run of small pieces into segments of at most `chunkSize`. -/
def mergePieces (chunkSize overlap : Nat) (sep : List Char) :
    List (List Char) → List (List Char)
  | [] => []
  | p :: ps => mergeGo chunkSize overlap sep p ps

/-- Modelled from the spec: walk the pieces produced at one separator
level, batching maximal runs of small pieces (length at most `chunkSize`)
for merging and re-splitting every oversized piece with the next-finer
separators (`handleBig`).  `run` holds the current batch in reverse. -/
def assemble (chunkSize overlap : Nat) (sep : List Char)
    (handleBig : List Char → List (List Char)) :
    List (List Char) → List (List Char) → List (List Char)
  | run, [] => mergePieces chunkSize overlap sep run.reverse
  | run, p :: ps =>
    if p.length ≤ chunkSize then
      assemble chunkSize overlap sep handleBig (p :: run) ps
    else
      mergePieces chunkSize overlap sep run.reverse ++ handleBig p ++
        assemble chunkSize overlap sep handleBig [] ps

/-- Modelled from the spec: §4.3 "recursively split on an ordered list of
separator strategies from coarsest to finest … try the coarsest separator
first; if any resulting piece still exceeds `chunk_size`, recursively
re-split that piece using the next-finer separator".  With no separator
left the piece is atomic. -/
def recChunk (chunkSize overlap : Nat) : List (List Char) → List Char → List (List Char)
  | [], text => [text]
  | sep :: rest, text =>
    assemble chunkSize overlap sep (fun p => recChunk chunkSize overlap rest p)
      [] (splitKeep sep text)

/-- Modelled from the spec: the full `split_text`; empty segments are
dropped, so that empty input text produces an empty sequence of segments
(§4.3). -/
def splitText (chunkSize overlap : Nat) (seps : List (List Char)) (text : List Char) :
    List (List Char) :=
  (recChunk chunkSize overlap seps text).filter (fun c => !c.isEmpty)

/-- The separator list configured at line 138: `["\n\n", "\n", " ", ""]`. -/
def pipeSeps : List (List Char) := [['\n', '\n'], ['\n'], [' '], []]

/-- The splitter with the source configuration: `chunk_size=150`,
`chunk_overlap=30` (lines 135-139), on strings. -/
def splitTextCfg (s : String) : List String :=
  (splitText 150 30 pipeSeps s.data).map (fun cs => String.mk cs)

/-- One decimal digit as a character. -/
def decDigitCh (d : Nat) : Char :=
  match d with
  | 0 => '0' | 1 => '1' | 2 => '2' | 3 => '3' | 4 => '4'
  | 5 => '5' | 6 => '6' | 7 => '7' | 8 => '8' | _ => '9'

/-- Decimal digits of a positive number, most significant first; `fuel`
bounds the recursion (`fuel = n` suffices). -/
def decDigitsGo : Nat → Nat → List Char
  | 0, _ => []
  | _ + 1, 0 => []
  | fuel + 1, n + 1 =>
    decDigitsGo fuel ((n + 1) / 10) ++ [decDigitCh ((n + 1) % 10)]

/-- Decimal rendering of a natural number, the model of Python's
`f"{i}"` for a non-negative int. -/
def decRepr (n : Nat) : String :=
  if n = 0 then "0" else String.mk (decDigitsGo n n)

/-- Decimal rendering of an integer. -/
def intRepr (i : Int) : String :=
  if i < 0 then "-" ++ decRepr i.natAbs else decRepr i.natAbs

/-- Model of Python's `str()` as applied by the f-string at line 149 to
values taken from parsed JSON.  Scalars are rendered as Python renders
them (`None`/`True`/`False`, strings verbatim, integers in decimal);
non-integral numbers and containers get schematic renderings (Python's
`float` and container `repr` are not modelled — no claim depends on them,
the chunk-id claims only use string-valued ids). -/
def jstr : JValue → String
  | .null => "None"
  | .bool true => "True"
  | .bool false => "False"
  | .num q => if q.den = 1 then intRepr q.num else intRepr q.num ++ "." ++ decRepr q.den
  | .str s => s
  | .arr _ => "<list>"
  | .obj _ => "<dict>"

/-- The chunk identifier of line 149:
`f"{md.get('chat_id')}::{md.get('turn_id')}::{i}"`. -/
def chunkIdStr (md : List (String × JValue)) (i : Nat) : String :=
  jstr (jgetD "chat_id" .null md) ++ "::" ++ jstr (jgetD "turn_id" .null md) ++ "::" ++
    decRepr i

/-- The chunk loop of lines 146-150: each chunk copies the document's
metadata and adds `chunk_index` and `chunk_id` (in that insertion order). -/
def chunkDocsGo (md : List (String × JValue)) : Nat → List (List Char) → List Doc
  | _, [] => []
  | i, c :: cs =>
    { page_content := String.mk c,
      metadata := md ++ [("chunk_index", .num i), ("chunk_id", .str (chunkIdStr md i))] } ::
      chunkDocsGo md (i + 1) cs

/-- Chunk one document (lines 144-150): split its text and enumerate the
chunks from index 0. -/
def chunkDoc (d : Doc) : List Doc :=
  chunkDocsGo d.metadata 0 (splitText 150 30 pipeSeps d.page_content.data)

/-- The `chunk_id` stored in a chunk's metadata (`""` when absent or not a
string — never the case for pipeline-produced chunks). -/
def chunkIdOf (d : Doc) : String :=
  match jget "chunk_id" d.metadata with
  | some (.str s) => s
  | _ => ""

/-- The full ingestion pipeline `s3_json_load_ingest`, from the lambda
classification response and the parsed JSON payload to the chunked
documents handed to the vector store.  Every caught exception path and
every "no documents" path of the source returns `[]`.  (The S3 fetch, the
JSON parse, and the Pinecone/embedding calls are external and out of
scope; the payload arrives here already parsed.) -/
def ingest (resp : Option LambdaResponse) (data : JValue) (cfg : Config) : List Doc :=
  match resp with
  | none => []
  | some r =>
    let acc := accessDecision r
    match normalizeChats data with
    | none => []
    | some chatsVal =>
      match iterPy chatsVal with
      | .error _ => []
      | .ok chats =>
        match buildDocsGo cfg acc chats with
        | .error _ => []
        | .ok docs => if docs.isEmpty then [] else docs.flatMap chunkDoc

/-- Opening citation bracket: ASCII `[` or full-width `【`
(the regex alternative `(?:\[|【)` at line 87). -/
def isOpenB (c : Char) : Bool := c == '[' || c == '【'

/-- Closing citation bracket: ASCII `]` or full-width `】`. -/
def isCloseB (c : Char) : Bool := c == ']' || c == '】'

/-- An ASCII decimal digit (`\d` of the marker regex). -/
def isDigitCh (c : Char) : Bool := '0' ≤ c && c ≤ '9'

/-- The scanner behind `re.findall(r"(?:\[|【)(\d+)(?:\]|】)", text)`
(line 87): at each position, an opening bracket followed by a maximal
non-empty digit run followed by a closing bracket yields the digit run
(the capture group) and scanning resumes after the match; otherwise
scanning advances one character.  `fuel` bounds the recursion
(`fuel = text.length` suffices). -/
def findMarkersGo : Nat → List Char → List (List Char)
  | 0, _ => []
  | _ + 1, [] => []
  | fuel + 1, c :: cs =>
    if isOpenB c then
      if (cs.takeWhile isDigitCh).isEmpty then findMarkersGo fuel cs
      else
        match cs.dropWhile isDigitCh with
        | c2 :: cs2 =>
          if isCloseB c2 then cs.takeWhile isDigitCh :: findMarkersGo fuel cs2
          else findMarkersGo fuel cs
        | [] => findMarkersGo fuel cs
    else
      findMarkersGo fuel cs

/-- All citation-marker digit strings found in a text, in match order. -/
def findMarkers (text : List Char) : List (List Char) :=
  findMarkersGo text.length text

/-- Numeric value of a digit string, the model of Python's `int` on a
`\d+` match (leading zeros allowed, never a `ValueError`). -/
def digitsToNat (ds : List Char) : Nat :=
  ds.foldl (fun a c => 10 * a + (c.toNat - 48)) 0

/-- First maximal digit run of a string
(`re.search(r'\d+', s).group()` at line 113; `[]` when there is none,
which for well-formed `source_id`s never happens). -/
def firstDigitRun : List Char → List Char
  | [] => []
  | c :: cs => if isDigitCh c then (c :: cs).takeWhile isDigitCh else firstDigitRun cs

/-- One entry of the `references` list built at lines 99-107. -/
structure Reference where
  source_id : String
  title : JValue
  chat_id : JValue
  turn_id : JValue
  timestamp : JValue

/-- Resolve one distinct marker digit-string against the retrieved
documents (lines 90-108): compute the 0-based index `int(s) - 1`; when it
is within range, build the reference from that document's metadata with
the literal defaults of lines 100-104; otherwise the marker is discarded. -/
def resolveRef (docs : List Doc) (s : String) : Option Reference :=
  let idx : Int := (digitsToNat s.data : Int) - 1
  if 0 ≤ idx ∧ idx < (docs.length : Int) then
    match docs[idx.toNat]? with
    | some d =>
      some { source_id := "[" ++ s ++ "]",
             title := jgetD "title" (.str "Unknown Title") d.metadata,
             chat_id := jgetD "chat_id" (.str "N/A") d.metadata,
             turn_id := jgetD "turn_id" (.str "N/A") d.metadata,
             timestamp := jgetD "timestamp" (.str "N/A") d.metadata }
    | none => none
  else
    none

/-- The numeric sort key of line 113: the first digit run of the
reference's `source_id`, as an integer. -/
def refVal (r : Reference) : Nat :=
  digitsToNat (firstDigitRun r.source_id.data)

/-- `_extract_references` (lines 82-115): collect the distinct marker
digit strings (Python's `set` — distinctness is by the captured string,
not by numeric value), resolve each against the candidate list, and sort
the references by numeric marker value (Python's stable `sort`, modelled
by insertion sort). -/
def extractReferences (responseText : List Char) (docs : List Doc) : List Reference :=
  let cited := ((findMarkers responseText).map (fun ds => String.mk ds)).dedup
  let refs := cited.filterMap (resolveRef docs)
  List.insertionSort (fun a b => refVal a ≤ refVal b) refs

/-- Modelled from the spec: the Pinecone metadata filter semantics of
`similarity_search(..., filter={"chat_user": {"$eq": chat_user}})` at
lines 63-71 (the vector store is an external collaborator; §4.5 describes
the filter as constraining documents whose `chat_user` field equals the
given value).  A falsy `chat_user` means no filter (line 64). -/
def filterMatches (chat_user : String) (d : Doc) : Bool :=
  if chat_user = "" then true
  else
    match jget "chat_user" d.metadata with
    | some (.str s) => s == chat_user
    | _ => false

/-! ### Decimal rendering: parsing is a left inverse, hence injectivity -/

theorem decDigitCh_toNat {d : Nat} (h : d < 10) : (decDigitCh d).toNat = 48 + d := by
  interval_cases d <;> rfl

theorem digitsToNat_append (xs : List Char) (c : Char) :
    digitsToNat (xs ++ [c]) = 10 * digitsToNat xs + (c.toNat - 48) := by
  simp [digitsToNat, List.foldl_append]

theorem digitsToNat_decDigitsGo : ∀ fuel n, n ≤ fuel →
    digitsToNat (decDigitsGo fuel n) = n := by
  intro fuel
  induction fuel with
  | zero => intro n h; interval_cases n; rfl
  | succ fuel ih =>
    intro n h
    match n with
    | 0 => rfl
    | n + 1 =>
      have hdiv : (n + 1) / 10 ≤ fuel := by
        have := Nat.div_lt_self (Nat.succ_pos n) (by norm_num : 1 < 10)
        omega
      have hmod : (n + 1) % 10 < 10 := Nat.mod_lt _ (by norm_num)
      have hdm := Nat.div_add_mod (n + 1) 10
      simp only [decDigitsGo]
      rw [digitsToNat_append, ih _ hdiv, decDigitCh_toNat hmod]
      omega

theorem digitsToNat_decRepr (n : Nat) : digitsToNat (decRepr n).data = n := by
  by_cases h : n = 0
  · subst h; rfl
  · rw [decRepr, if_neg h]
    exact digitsToNat_decDigitsGo n n le_rfl

theorem decRepr_inj {m n : Nat} (h : decRepr m = decRepr n) : m = n := by
  have h2 := congrArg (fun s : String => digitsToNat s.data) h
  simpa [digitsToNat_decRepr] using h2

/-! ### Lookup lemmas -/

theorem jget_append_left {k : String} {v : JValue} :
    ∀ {xs : List (String × JValue)}, jget k xs = some v →
      ∀ ys, jget k (xs ++ ys) = some v := by
  intro xs
  induction xs with
  | nil => intro h; simp [jget] at h
  | cons p rest ih =>
    obtain ⟨k', w⟩ := p
    intro h ys
    rw [List.cons_append]
    by_cases hk : k' = k
    · simp only [jget, if_pos hk] at h ⊢; exact h
    · simp only [jget, if_neg hk] at h ⊢; exact ih h ys

theorem jget_append_right {k : String} :
    ∀ {xs : List (String × JValue)}, jget k xs = none →
      ∀ ys, jget k (xs ++ ys) = jget k ys := by
  intro xs
  induction xs with
  | nil => intro _ ys; rfl
  | cons p rest ih =>
    obtain ⟨k', w⟩ := p
    intro h ys
    rw [List.cons_append]
    by_cases hk : k' = k
    · simp only [jget, if_pos hk] at h; exact absurd h (by simp)
    · simp only [jget, if_neg hk] at h ⊢; exact ih h ys

theorem jget_mkMeta_accessibility (cfg : Config) (acc : String × ℚ)
    (chat mf : List (String × JValue)) :
    jget "accessibility" (mkMeta cfg acc chat mf) = some (.str acc.1) := by
  simp [mkMeta, jget]

theorem jget_mkMeta_confidence (cfg : Config) (acc : String × ℚ)
    (chat mf : List (String × JValue)) :
    jget "accessibility_confidence_score" (mkMeta cfg acc chat mf) = some (.num acc.2) := by
  simp [mkMeta, jget]

theorem jget_mkMeta_chat_user (cfg : Config) (acc : String × ℚ)
    (chat mf : List (String × JValue)) :
    jget "chat_user" (mkMeta cfg acc chat mf) = none := by
  simp [mkMeta, jget]

theorem jget_mkMeta_chat_account (cfg : Config) (acc : String × ℚ)
    (chat mf : List (String × JValue)) :
    jget "chat_account" (mkMeta cfg acc chat mf) =
      some (jgetD "chat_user" cfg.chatUser chat) := by
  simp [mkMeta, jget]

theorem jget_mkMeta_timestamp (cfg : Config) (acc : String × ℚ)
    (chat mf : List (String × JValue)) :
    jget "timestamp" (mkMeta cfg acc chat mf) = none := by
  simp [mkMeta, jget]

theorem jget_mkMeta_chunk_id (cfg : Config) (acc : String × ℚ)
    (chat mf : List (String × JValue)) :
    jget "chunk_id" (mkMeta cfg acc chat mf) = none := by
  simp [mkMeta, jget]

/-! ### Chunk metadata structure -/

theorem chunkIdOf_chunk {md : List (String × JValue)} (hmd : jget "chunk_id" md = none)
    (i : Nat) (s : String) :
    chunkIdOf ⟨s, md ++ [("chunk_index", JValue.num (i : ℚ)),
      ("chunk_id", JValue.str (chunkIdStr md i))]⟩ = chunkIdStr md i := by
  simp only [chunkIdOf]
  rw [jget_append_right hmd]
  simp [jget]

theorem chunkDocsGo_mem {md : List (String × JValue)} :
    ∀ {cs : List (List Char)} {i : Nat} {d : Doc}, d ∈ chunkDocsGo md i cs →
      ∃ (j : Nat) (c : List Char),
        d = { page_content := String.mk c,
              metadata := md ++ [("chunk_index", JValue.num (j : ℚ)),
                ("chunk_id", JValue.str (chunkIdStr md j))] } := by
  intro cs
  induction cs with
  | nil => intro i d h; simp [chunkDocsGo] at h
  | cons c rest ih =>
    intro i d h
    simp only [chunkDocsGo, List.mem_cons] at h
    rcases h with h | h
    · exact ⟨i, c, h⟩
    · exact ih h

theorem chunkDocsGo_map {md : List (String × JValue)} (hmd : jget "chunk_id" md = none) :
    ∀ (cs : List (List Char)) (i : Nat),
      (chunkDocsGo md i cs).map chunkIdOf =
        (List.range cs.length).map (fun j => chunkIdStr md (i + j)) := by
  intro cs
  induction cs with
  | nil => intro i; rfl
  | cons c rest ih =>
    intro i
    simp only [chunkDocsGo, List.map_cons, List.length_cons, List.range_succ_eq_map,
      List.map_map]
    refine congrArg₂ List.cons ?_ ?_
    · rw [chunkIdOf_chunk hmd]
      simp
    · rw [ih (i + 1)]
      refine List.map_congr_left ?_
      intro a _
      show chunkIdStr md (i + 1 + a) = chunkIdStr md (i + Nat.succ a)
      congr 1
      omega

/-! ### Flattening: metadata shape, lengths, skipping -/

theorem msgDoc_meta {cfg : Config} {acc : String × ℚ} {chat : List (String × JValue)}
    {m : JValue} {d : Doc} (h : msgDoc cfg acc chat m = .ok d) :
    ∃ mf, d.metadata = mkMeta cfg acc chat mf := by
  cases m with
  | obj mf =>
    simp only [msgDoc] at h
    split at h
    · cases h
    · cases h; exact ⟨mf, rfl⟩
  | null => cases h
  | bool b => cases h
  | num q => cases h
  | str s => cases h
  | arr xs => cases h

theorem msgsGo_meta {cfg : Config} {acc : String × ℚ} {chat : List (String × JValue)} :
    ∀ {ms : List JValue} {docs : List Doc}, msgsGo cfg acc chat ms = .ok docs →
      ∀ d ∈ docs, ∃ mf, d.metadata = mkMeta cfg acc chat mf := by
  intro ms
  induction ms with
  | nil => intro docs h d hd; cases h; simp at hd
  | cons m ms ih =>
    intro docs h d hd
    simp only [msgsGo] at h
    split at h
    · cases h
    next d1 h1 =>
      split at h
      · cases h
      next rest h2 =>
        cases h
        rcases List.mem_cons.mp hd with rfl | hd'
        · exact msgDoc_meta h1
        · exact ih h2 d hd'

theorem chatDocs_meta {cfg : Config} {acc : String × ℚ} {c : JValue} {docs : List Doc}
    (h : chatDocs cfg acc c = .ok docs) :
    ∀ d ∈ docs, ∃ chat mf, d.metadata = mkMeta cfg acc chat mf := by
  cases c with
  | obj fields =>
    simp only [chatDocs] at h
    split at h
    · cases h; intro d hd; simp at hd
    · split at h
      · cases h
      next ms hms =>
        intro d hd
        obtain ⟨mf, hmf⟩ := msgsGo_meta h d hd
        exact ⟨fields, mf, hmf⟩
  | null => cases h
  | bool b => cases h
  | num q => cases h
  | str s => cases h
  | arr xs => cases h

theorem buildDocsGo_meta {cfg : Config} {acc : String × ℚ} :
    ∀ {chats : List JValue} {docs : List Doc}, buildDocsGo cfg acc chats = .ok docs →
      ∀ d ∈ docs, ∃ chat mf, d.metadata = mkMeta cfg acc chat mf := by
  intro chats
  induction chats with
  | nil => intro docs h d hd; cases h; simp at hd
  | cons c cs ih =>
    intro docs h d hd
    simp only [buildDocsGo] at h
    split at h
    · cases h
    next ds h1 =>
      split at h
      · cases h
      next rest h2 =>
        cases h
        rcases List.mem_append.mp hd with hd' | hd'
        · exact chatDocs_meta h1 d hd'
        · exact ih h2 d hd'

theorem msgsGo_length {cfg : Config} {acc : String × ℚ} {chat : List (String × JValue)} :
    ∀ {ms : List JValue} {docs : List Doc}, msgsGo cfg acc chat ms = .ok docs →
      docs.length = ms.length := by
  intro ms
  induction ms with
  | nil => intro docs h; cases h; rfl
  | cons m ms ih =>
    intro docs h
    simp only [msgsGo] at h
    split at h
    · cases h
    next d1 h1 =>
      split at h
      · cases h
      next rest h2 =>
        cases h
        simp [ih h2]

theorem chatDocs_length {cfg : Config} {acc : String × ℚ} {c : JValue} {docs : List Doc}
    (h : chatDocs cfg acc c = .ok docs) : docs.length = turnCount c := by
  cases c with
  | obj fields =>
    simp only [chatDocs] at h
    simp only [turnCount]
    split at h
    next hv => cases h; simp [hv]
    next v hv =>
      split at h
      · cases h
      next ms hms =>
        simp only [hms]
        exact msgsGo_length h
  | null => cases h
  | bool b => cases h
  | num q => cases h
  | str s => cases h
  | arr xs => cases h

theorem buildDocsGo_length {cfg : Config} {acc : String × ℚ} :
    ∀ {chats : List JValue} {docs : List Doc}, buildDocsGo cfg acc chats = .ok docs →
      docs.length = (chats.map turnCount).sum := by
  intro chats
  induction chats with
  | nil => intro docs h; cases h; rfl
  | cons c cs ih =>
    intro docs h
    simp only [buildDocsGo] at h
    split at h
    · cases h
    next ds h1 =>
      split at h
      · cases h
      next rest h2 =>
        cases h
        simp [List.length_append, chatDocs_length h1, ih h2]

theorem buildDocsGo_skip {cfg : Config} {acc : String × ℚ}
    {fields : List (String × JValue)} (hf : jget "messages" fields = none) :
    ∀ pre post, buildDocsGo cfg acc (pre ++ JValue.obj fields :: post) =
      buildDocsGo cfg acc (pre ++ post) := by
  intro pre
  induction pre with
  | nil =>
    intro post
    rw [List.nil_append, List.nil_append]
    have hc : chatDocs cfg acc (JValue.obj fields) = .ok [] := by
      simp [chatDocs, hf]
    simp only [buildDocsGo, hc]
    cases hb : buildDocsGo cfg acc post <;> simp
  | cons c cs ih =>
    intro post
    rw [List.cons_append, List.cons_append]
    simp only [buildDocsGo, ih post]

/-- Every chunk produced by an ingestion call carries the metadata of some
flattened turn (`mkMeta`) extended by its chunk fields. -/
theorem ingest_meta {r : LambdaResponse} {data : JValue} {cfg : Config} {d : Doc}
    (h : d ∈ ingest (some r) data cfg) :
    ∃ (chat mf : List (String × JValue)) (i : Nat), d.metadata =
      mkMeta cfg (accessDecision r) chat mf ++
        [("chunk_index", JValue.num (i : ℚ)),
         ("chunk_id", JValue.str (chunkIdStr (mkMeta cfg (accessDecision r) chat mf) i))] := by
  simp only [ingest] at h
  split at h
  · simp at h
  next chatsVal hn =>
    split at h
    · simp at h
    next chats hi =>
      split at h
      · simp at h
      next docs hb =>
        split at h
        · simp at h
        · obtain ⟨du, hdu, hd⟩ := List.mem_flatMap.mp h
          obtain ⟨chat, mf, hmeta⟩ := buildDocsGo_meta hb du hdu
          simp only [chunkDoc, hmeta] at hd
          obtain ⟨j, c, rfl⟩ := chunkDocsGo_mem hd
          exact ⟨chat, mf, j, rfl⟩

/-! ### Chunker: splitting reconstructs the text -/

theorem leadsWith_eq : ∀ (p l : List Char), leadsWith p l = true → l = p ++ l.drop p.length
  | [], l, _ => by simp
  | a :: as, [], h => by simp [leadsWith] at h
  | a :: as, b :: bs, h => by
    simp only [leadsWith, Bool.and_eq_true, beq_iff_eq] at h
    obtain ⟨rfl, h2⟩ := h
    simp only [List.length_cons, List.drop_succ_cons, List.cons_append]
    exact congrArg (List.cons a) (leadsWith_eq as bs h2)

theorem joinSep_cons {sep p : List Char} {ps : List (List Char)} (h : ps ≠ []) :
    joinSep sep (p :: ps) = p ++ sep ++ joinSep sep ps := by
  cases ps with
  | nil => exact absurd rfl h
  | cons q qs => rfl

theorem splitKeepGo_ne_nil (sep : List Char) :
    ∀ fuel acc rest, splitKeepGo sep fuel acc rest ≠ [] := by
  intro fuel
  induction fuel with
  | zero => intro acc rest; cases rest <;> simp [splitKeepGo]
  | succ fuel ih =>
    intro acc rest
    cases rest with
    | nil => simp [splitKeepGo]
    | cons c cs =>
      simp only [splitKeepGo]
      split
      · simp
      · exact ih _ _

theorem splitKeepGo_join (sep : List Char) :
    ∀ fuel acc rest, joinSep sep (splitKeepGo sep fuel acc rest) = acc.reverse ++ rest := by
  intro fuel
  induction fuel with
  | zero =>
    intro acc rest
    cases rest with
    | nil => simp [splitKeepGo, joinSep]
    | cons c cs => simp [splitKeepGo, joinSep]
  | succ fuel ih =>
    intro acc rest
    cases rest with
    | nil => simp [splitKeepGo, joinSep]
    | cons c cs =>
      simp only [splitKeepGo]
      split
      next hlw =>
        rw [joinSep_cons (splitKeepGo_ne_nil _ _ _ _), ih]
        have hdecomp := leadsWith_eq sep (c :: cs) hlw
        conv_rhs => rw [hdecomp]
        simp [List.append_assoc]
      next =>
        rw [ih]
        simp

theorem joinSep_map_singleton : ∀ text : List Char,
    joinSep [] (text.map (fun c => [c])) = text
  | [] => rfl
  | c :: cs => by
    cases cs with
    | nil => rfl
    | cons c2 cs2 =>
      rw [List.map_cons, joinSep_cons (by simp), joinSep_map_singleton (c2 :: cs2)]
      simp

theorem splitKeep_join (sep text : List Char) :
    joinSep sep (splitKeep sep text) = text := by
  cases sep with
  | nil => exact joinSep_map_singleton text
  | cons a as =>
    simp only [splitKeep]
    rw [splitKeepGo_join]
    simp

theorem splitKeep_ne_nil {sep text : List Char} (h : text ≠ []) : splitKeep sep text ≠ [] := by
  cases sep with
  | nil =>
    intro hc
    exact h (by simpa [splitKeep, List.map_eq_nil_iff] using hc)
  | cons a as => exact splitKeepGo_ne_nil _ _ _ _

theorem mem_joinSep_length {sep : List Char} :
    ∀ {ps : List (List Char)} {p : List Char}, p ∈ ps →
      p.length ≤ (joinSep sep ps).length := by
  intro ps
  induction ps with
  | nil => intro p h; simp at h
  | cons q qs ih =>
    intro p h
    rcases List.mem_cons.mp h with rfl | h'
    · cases qs with
      | nil => simp [joinSep]
      | cons r rs =>
        rw [joinSep_cons (by simp)]
        simp [List.length_append]
    · cases qs with
      | nil => simp at h'
      | cons r rs =>
        rw [joinSep_cons (by simp)]
        have := ih h'
        simp only [List.length_append]
        omega

/-! ### Chunker: every emitted segment fits the chunk size -/

theorem nextCur_bound {B ov : Nat} {sep cur p : List Char} (hp : p.length ≤ B) :
    (nextCur B ov sep cur p).length ≤ B := by
  simp only [nextCur]
  split
  · exact hp
  next hne =>
    have h1 : (cur.drop (cur.length - min ov (B - p.length - sep.length))).length ≠ 0 := by
      rw [Ne, List.length_eq_zero]
      simpa [List.isEmpty_iff] using hne
    rw [List.length_append, List.length_append, List.length_drop]
    rw [List.length_drop] at h1
    omega

theorem mergeGo_bound {B ov : Nat} {sep : List Char} :
    ∀ {ps : List (List Char)} {cur : List Char}, cur.length ≤ B →
      (∀ p ∈ ps, p.length ≤ B) →
      ∀ c ∈ mergeGo B ov sep cur ps, c.length ≤ B := by
  intro ps
  induction ps with
  | nil =>
    intro cur hcur _ c hc
    simp only [mergeGo, List.mem_singleton] at hc
    subst hc
    exact hcur
  | cons p ps ih =>
    intro cur hcur hps c hc
    simp only [mergeGo] at hc
    split at hc
    next hfit =>
      exact ih hfit (fun q hq => hps q (List.mem_cons_of_mem _ hq)) c hc
    next hnofit =>
      rcases List.mem_cons.mp hc with rfl | hc'
      · exact hcur
      · exact ih (nextCur_bound (hps p (List.mem_cons_self _ _)))
          (fun q hq => hps q (List.mem_cons_of_mem _ hq)) c hc'

theorem mergePieces_bound {B ov : Nat} {sep : List Char} {ps : List (List Char)}
    (hps : ∀ p ∈ ps, p.length ≤ B) : ∀ c ∈ mergePieces B ov sep ps, c.length ≤ B := by
  cases ps with
  | nil => intro c hc; simp [mergePieces] at hc
  | cons p ps =>
    exact mergeGo_bound (hps p (List.mem_cons_self _ _))
      (fun q hq => hps q (List.mem_cons_of_mem _ hq))

theorem assemble_bound {B ov : Nat} {sep : List Char} {f : List Char → List (List Char)} :
    ∀ {ps run : List (List Char)},
      (∀ q ∈ run, q.length ≤ B) →
      (∀ p ∈ ps, B < p.length → ∀ c ∈ f p, c.length ≤ B) →
      ∀ c ∈ assemble B ov sep f run ps, c.length ≤ B := by
  intro ps
  induction ps with
  | nil =>
    intro run hrun _ c hc
    exact mergePieces_bound (fun q hq => hrun q (List.mem_reverse.mp hq)) c hc
  | cons p ps ih =>
    intro run hrun hbig c hc
    simp only [assemble] at hc
    split at hc
    next hsmall =>
      refine ih ?_ (fun q hq h => hbig q (List.mem_cons_of_mem _ hq) h) c hc
      intro q hq
      rcases List.mem_cons.mp hq with rfl | hq'
      · exact hsmall
      · exact hrun q hq'
    next hbig1 =>
      rcases List.mem_append.mp hc with hc1 | hc2
      · rcases List.mem_append.mp hc1 with hc1a | hc1b
        · exact mergePieces_bound (fun q hq => hrun q (List.mem_reverse.mp hq)) c hc1a
        · exact hbig p (List.mem_cons_self _ _) (by omega) c hc1b
      · refine ih (by intro q hq; simp at hq)
          (fun q hq h => hbig q (List.mem_cons_of_mem _ hq) h) c hc2

theorem recChunk_bound {B ov : Nat} (hB : 1 ≤ B) :
    ∀ (seps : List (List Char)), [] ∈ seps →
      ∀ (text : List Char), ∀ c ∈ recChunk B ov seps text, c.length ≤ B := by
  intro seps
  induction seps with
  | nil => intro h; simp at h
  | cons sep rest ih =>
    intro hmem text c hc
    simp only [recChunk] at hc
    by_cases hrest : [] ∈ rest
    · refine assemble_bound (by intro q hq; simp at hq) ?_ c hc
      intro p _ _ c' hc'
      exact ih hrest p c' hc'
    · have hsep : sep = [] := by
        rcases List.mem_cons.mp hmem with h | h
        · exact h.symm
        · exact absurd h hrest
      subst hsep
      refine assemble_bound (by intro q hq; simp at hq) ?_ c hc
      intro p hp hbig c' hc'
      exfalso
      have hp1 : p.length = 1 := by
        simp only [splitKeep] at hp
        obtain ⟨a, _, rfl⟩ := List.mem_map.mp hp
        rfl
      omega

/-! ### Chunker: short texts come back whole -/

theorem mergeGo_all {B ov : Nat} {sep : List Char} :
    ∀ {ps : List (List Char)} {cur : List Char},
      (joinSep sep (cur :: ps)).length ≤ B →
      mergeGo B ov sep cur ps = [joinSep sep (cur :: ps)] := by
  intro ps
  induction ps with
  | nil => intro cur _; rfl
  | cons p ps ih =>
    intro cur hlen
    have hkey : joinSep sep (cur :: p :: ps) = joinSep sep ((cur ++ sep ++ p) :: ps) := by
      cases ps with
      | nil => simp [joinSep, List.append_assoc]
      | cons r rs =>
        conv_lhs => rw [joinSep_cons (by simp), joinSep_cons (by simp)]
        conv_rhs => rw [joinSep_cons (by simp)]
        simp [List.append_assoc]
    have hcand : (cur ++ sep ++ p).length ≤ B := by
      have h1 : (cur ++ sep ++ p).length ≤ (joinSep sep ((cur ++ sep ++ p) :: ps)).length :=
        mem_joinSep_length (List.mem_cons_self _ _)
      rw [← hkey] at h1
      exact le_trans h1 hlen
    simp only [mergeGo]
    rw [if_pos hcand, ih (by rw [← hkey]; exact hlen), hkey]

theorem assemble_small_all {B ov : Nat} {sep : List Char} {f : List Char → List (List Char)} :
    ∀ {ps run : List (List Char)}, (∀ p ∈ ps, p.length ≤ B) →
      assemble B ov sep f run ps = mergePieces B ov sep (run.reverse ++ ps) := by
  intro ps
  induction ps with
  | nil => intro run _; simp [assemble]
  | cons p ps ih =>
    intro run hps
    simp only [assemble]
    rw [if_pos (hps p (List.mem_cons_self _ _))]
    rw [ih (fun q hq => hps q (List.mem_cons_of_mem _ hq))]
    simp [List.reverse_cons, List.append_assoc]

theorem recChunk_short {B ov : Nat} {text : List Char} (hne : text ≠ [])
    (hlen : text.length ≤ B) (seps : List (List Char)) :
    recChunk B ov seps text = [text] := by
  cases seps with
  | nil => rfl
  | cons sep rest =>
    simp only [recChunk]
    have hpieces : ∀ p ∈ splitKeep sep text, p.length ≤ B := by
      intro p hp
      have h1 : p.length ≤ (joinSep sep (splitKeep sep text)).length :=
        mem_joinSep_length hp
      rw [splitKeep_join] at h1
      omega
    rw [assemble_small_all hpieces, List.reverse_nil, List.nil_append]
    obtain ⟨q, qs, hqs⟩ : ∃ q qs, splitKeep sep text = q :: qs := by
      cases hsk : splitKeep sep text with
      | nil => exact absurd hsk (splitKeep_ne_nil hne)
      | cons q qs => exact ⟨q, qs, rfl⟩
    rw [hqs]
    have hjoin : joinSep sep (q :: qs) = text := by rw [← hqs, splitKeep_join]
    show mergeGo B ov sep q qs = [text]
    rw [mergeGo_all (by rw [hjoin]; exact hlen), hjoin]

theorem splitText_short {B ov : Nat} {text : List Char} (hne : text ≠ [])
    (hlen : text.length ≤ B) (seps : List (List Char)) :
    splitText B ov seps text = [text] := by
  rw [splitText, recChunk_short hne hlen]
  cases text with
  | nil => exact absurd rfl hne
  | cons c cs => rfl

/-! ### Citation extraction lemmas -/

theorem findMarkersGo_digits :
    ∀ fuel text ds, ds ∈ findMarkersGo fuel text →
      ds ≠ [] ∧ ∀ c ∈ ds, isDigitCh c = true := by
  intro fuel
  induction fuel with
  | zero => intro text ds h; simp [findMarkersGo] at h
  | succ fuel ih =>
    intro text ds h
    cases text with
    | nil => simp [findMarkersGo] at h
    | cons c cs =>
      simp only [findMarkersGo] at h
      split at h
      · split at h
        · exact ih cs ds h
        next hne =>
          split at h
          next c2 cs2 heq =>
            split at h
            · rcases List.mem_cons.mp h with rfl | h'
              · refine ⟨?_, fun x hx => List.mem_takeWhile_imp hx⟩
                intro hnil
                exact hne (by rw [hnil]; rfl)
              · exact ih cs2 ds h'
            · exact ih cs ds h
          · exact ih cs ds h
      · exact ih cs ds h

theorem takeWhile_all_stop {p : Char → Bool} :
    ∀ {ds : List Char} {x : Char} {rest : List Char},
      (∀ c ∈ ds, p c = true) → p x = false →
      (ds ++ x :: rest).takeWhile p = ds := by
  intro ds
  induction ds with
  | nil => intro x rest _ hx; simp [List.takeWhile_cons, hx]
  | cons d ds ih =>
    intro x rest hall hx
    have hd : p d = true := hall d (List.mem_cons_self _ _)
    simp [List.takeWhile_cons, hd,
      ih (fun c hc => hall c (List.mem_cons_of_mem _ hc)) hx]

theorem firstDigitRun_marker {ds : List Char} (hne : ds ≠ [])
    (hall : ∀ c ∈ ds, isDigitCh c = true) :
    firstDigitRun ('[' :: (ds ++ [']'])) = ds := by
  cases ds with
  | nil => exact absurd rfl hne
  | cons d dtail =>
    show firstDigitRun ('[' :: ((d :: dtail) ++ [']'])) = d :: dtail
    rw [firstDigitRun, if_neg (by decide)]
    rw [List.cons_append, firstDigitRun,
      if_pos (hall d (List.mem_cons_self _ _))]
    rw [← List.cons_append]
    exact takeWhile_all_stop hall (by decide)

theorem data_bracket (s : String) :
    ("[" ++ s ++ "]").data = '[' :: (s.data ++ [']']) := by
  rw [String.data_append, String.data_append]
  rfl

theorem resolveRef_some {docs : List Doc} {s : String} {r : Reference}
    (h : resolveRef docs s = some r) :
    (1 ≤ digitsToNat s.data ∧ digitsToNat s.data ≤ docs.length) ∧
      r.source_id = "[" ++ s ++ "]" := by
  simp only [resolveRef] at h
  split at h
  next hcond =>
    split at h
    next d hd =>
      cases h
      exact ⟨by omega, rfl⟩
    · cases h
  · cases h

theorem resolveRef_isSome_iff (docs : List Doc) (s : String) :
    (resolveRef docs s).isSome ↔
      1 ≤ digitsToNat s.data ∧ digitsToNat s.data ≤ docs.length := by
  constructor
  · intro h
    obtain ⟨r, hr⟩ := Option.isSome_iff_exists.mp h
    exact (resolveRef_some hr).1
  · intro h
    simp only [resolveRef]
    have hcond : 0 ≤ (digitsToNat s.data : Int) - 1 ∧
        (digitsToNat s.data : Int) - 1 < (docs.length : Int) := by omega
    rw [if_pos hcond]
    have hlt : ((digitsToNat s.data : Int) - 1).toNat < docs.length := by omega
    rw [List.getElem?_eq_getElem hlt]
    rfl

theorem filterMap_resolveRef_nodup {docs : List Doc} :
    ∀ {l : List String}, l.Nodup →
      ((l.filterMap (resolveRef docs)).map Reference.source_id).Nodup := by
  intro l
  induction l with
  | nil => intro _; simp
  | cons s l ih =>
    intro hnd
    rw [List.filterMap_cons]
    cases hr : resolveRef docs s with
    | none => exact ih (List.nodup_cons.mp hnd).2
    | some r =>
      rw [List.map_cons]
      refine List.nodup_cons.mpr ⟨?_, ih (List.nodup_cons.mp hnd).2⟩
      intro hmem
      obtain ⟨r', hr', hsrc⟩ := List.mem_map.mp hmem
      obtain ⟨s', hs', hrs'⟩ := List.mem_filterMap.mp hr'
      have e1 := (resolveRef_some hr).2
      have e2 := (resolveRef_some hrs').2
      have hss : s' = s := by
        have hb : ("[" ++ s' ++ "]" : String) = "[" ++ s ++ "]" := by
          rw [← e2, ← e1, hsrc]
        have hd := congrArg String.data hb
        rw [data_bracket, data_bracket] at hd
        have htail := (List.cons.inj hd).2
        exact String.ext (List.append_cancel_right htail)
      exact (List.nodup_cons.mp hnd).1 (hss ▸ hs')

theorem extractReferences_sorted (text : List Char) (docs : List Doc) :
    List.Sorted (fun a b => refVal a ≤ refVal b) (extractReferences text docs) := by
  haveI h1 : IsTotal Reference (fun a b => refVal a ≤ refVal b) :=
    ⟨fun a b => Nat.le_total _ _⟩
  haveI h2 : IsTrans Reference (fun a b => refVal a ≤ refVal b) :=
    ⟨fun a b c => Nat.le_trans⟩
  exact List.sorted_insertionSort _ _

theorem extractReferences_perm (text : List Char) (docs : List Doc) :
    (extractReferences text docs).Perm
      ((((findMarkers text).map (fun ds => String.mk ds)).dedup).filterMap
        (resolveRef docs)) := by
  simp only [extractReferences]
  exact List.perm_insertionSort _ _

theorem refVal_resolved {text : List Char} {docs : List Doc} {s : String} {r : Reference}
    (hs : s ∈ ((findMarkers text).map (fun ds => String.mk ds)).dedup)
    (hr : resolveRef docs s = some r) :
    refVal r = digitsToNat s.data := by
  obtain ⟨ds, hds, rfl⟩ := List.mem_map.mp (List.mem_dedup.mp hs)
  obtain ⟨hne, hall⟩ := findMarkersGo_digits _ _ _ hds
  have hsrc := (resolveRef_some hr).2
  rw [refVal, hsrc, data_bracket]
  show digitsToNat (firstDigitRun ('[' :: (ds ++ [']']))) = digitsToNat ds
  rw [firstDigitRun_marker hne hall]

/-! ### Claim theorems -/

/-- C1: for every classification result, the accessibility decision
satisfies: if the second category's probability `p` is `≥ 0.90` (a strict
`≥`, so exactly `0.90` yields `"work"`), the label is `"work"` with
confidence equal to `p`; otherwise the label is `"personal"` with
confidence `1 - p`; and this single label/score pair is attached
identically to every unit produced by that ingestion call. -/
theorem claim1_accessibility (r : LambdaResponse) :
    (9 / 10 ≤ r.category_two.probability →
      accessDecision r = ("work", r.category_two.probability)) ∧
    (r.category_two.probability < 9 / 10 →
      accessDecision r = ("personal", 1 - r.category_two.probability)) ∧
    (∀ (cfg : Config) (data : JValue) (d : Doc), d ∈ ingest (some r) data cfg →
      jget "accessibility" d.metadata = some (.str (accessDecision r).1) ∧
      jget "accessibility_confidence_score" d.metadata =
        some (.num (accessDecision r).2)) := by
  refine ⟨?_, ?_, ?_⟩
  · intro h
    rw [accessDecision, if_pos (by rw [workThreshold_eq]; exact h)]
  · intro h
    rw [accessDecision, if_neg (by rw [workThreshold_eq]; exact not_le.mpr h)]
  · intro cfg data d hd
    obtain ⟨chat, mf, i, hmeta⟩ := ingest_meta hd
    rw [hmeta]
    constructor
    · exact jget_append_left (jget_mkMeta_accessibility cfg _ chat mf) _
    · exact jget_append_left (jget_mkMeta_confidence cfg _ chat mf) _

def c1prob : ℚ := Rat.mk' 9 10 (by norm_num) (by norm_num)

def c1resp : LambdaResponse :=
  ⟨⟨"personal", Rat.mk' 1 10 (by norm_num) (by norm_num)⟩, ⟨"work", c1prob⟩⟩

def c1cfg : Config := ⟨.null, .null⟩

def c1data : JValue := .arr [.obj [("chat_id", .str "A"),
  ("messages", .arr [.obj [("turn_id", .str "1"), ("message", .str "hi")]])]]

def c1doc : Doc :=
  ⟨"hi", [("chat_engine", .null), ("chat_account", .null), ("chat_id", .str "A"),
    ("title", .null), ("chat_creation_time", .null), ("turn_id", .str "1"),
    ("author", .null), ("turn_timestamp", .null), ("accessibility", .str "work"),
    ("accessibility_confidence_score", .num c1prob),
    ("chunk_index", .num ((0 : Nat) : ℚ)), ("chunk_id", .str "A::1::0")]⟩

/-- Witness for C1, at the boundary `p = 0.9` exactly (which yields
`"work"`), on a one-chat, one-turn ingestion. -/
theorem claim1_accessibility_witness :
    accessDecision c1resp = ("work", c1prob) ∧
    jget "accessibility" c1doc.metadata = some (.str "work") ∧
    jget "accessibility_confidence_score" c1doc.metadata = some (.num c1prob) := by
  have hle : (9 : ℚ) / 10 ≤ c1resp.category_two.probability :=
    le_of_eq workThreshold_eq.symm
  have hmem : c1doc ∈ ingest (some c1resp) c1data c1cfg := by
    rw [show ingest (some c1resp) c1data c1cfg = [c1doc] from rfl]
    exact List.mem_singleton_self _
  exact ⟨(claim1_accessibility c1resp).1 hle,
    ((claim1_accessibility c1resp).2.2 c1cfg c1data c1doc hmem).1,
    ((claim1_accessibility c1resp).2.2 c1cfg c1data c1doc hmem).2⟩

def c2doc : Doc := ⟨"c2", []⟩

/-- C2 counterexample: the source dedupes citation markers by the captured
digit *string* (`set(re.findall(...))`), not by numeric value, so the text
`"[1][01]"` with one candidate yields two citations that share the numeric
marker value 1 — the returned list does contain duplicate marker values. -/
theorem claim2_counterexample :
    ((extractReferences "[1][01]".data [c2doc]).map refVal = [1, 1]) ∧
    ¬ ((extractReferences "[1][01]".data [c2doc]).map refVal).Nodup := by
  exact ⟨rfl, by decide⟩

/-- C2 (amended): citation extraction collects the distinct marker digit
strings (deduplicating by the captured text, so digit strings denoting the
same integer, such as `1` and `01`, each yield a citation); the returned
list contains no duplicate digit strings (`source_id`s) and is sorted
ascending (non-strictly) by numeric marker value. -/
theorem claim2_amended (text : List Char) (docs : List Doc) :
    List.Sorted (· ≤ ·) ((extractReferences text docs).map refVal) ∧
    ((extractReferences text docs).map Reference.source_id).Nodup := by
  constructor
  · exact List.Pairwise.map refVal (fun a b h => h) (extractReferences_sorted text docs)
  · exact ((extractReferences_perm text docs).map Reference.source_id).nodup_iff.mpr
      (filterMap_resolveRef_nodup (List.nodup_dedup _))

/-- C4: the JSON shape normaliser wraps a mapping containing `"messages"`
as a one-element chat sequence; else uses the value of `"data"` when that
key is present; else uses a sequence directly; any other shape makes the
ingestion call return an empty result rather than raise. -/
theorem claim4_normalizer :
    (∀ fields : List (String × JValue),
      ((jget "messages" fields).isSome →
        normalizeChats (.obj fields) = some (.arr [.obj fields])) ∧
      (jget "messages" fields = none → ∀ v, jget "data" fields = some v →
        normalizeChats (.obj fields) = some v) ∧
      (jget "messages" fields = none → jget "data" fields = none →
        normalizeChats (.obj fields) = none)) ∧
    (∀ xs : List JValue, normalizeChats (.arr xs) = some (.arr xs)) ∧
    (normalizeChats .null = none ∧ (∀ b, normalizeChats (.bool b) = none) ∧
      (∀ q, normalizeChats (.num q) = none) ∧ (∀ s, normalizeChats (.str s) = none)) ∧
    (∀ data : JValue, normalizeChats data = none →
      ∀ (resp : LambdaResponse) (cfg : Config), ingest (some resp) data cfg = []) := by
  refine ⟨?_, fun xs => rfl, ⟨rfl, fun b => rfl, fun q => rfl, fun s => rfl⟩, ?_⟩
  · intro fields
    refine ⟨?_, ?_, ?_⟩
    · intro h; simp [normalizeChats, h]
    · intro h v hv; simp [normalizeChats, h, hv]
    · intro h1 h2; simp [normalizeChats, h1, h2]
  · intro data h resp cfg
    simp [ingest, h]

def c4resp : LambdaResponse := ⟨⟨"personal", 0⟩, ⟨"work", 0⟩⟩

def c4cfg : Config := ⟨.null, .null⟩

/-- Witness for C4 on one concrete input per shape. -/
theorem claim4_witness :
    normalizeChats (.obj [("messages", JValue.arr [])]) =
      some (.arr [.obj [("messages", JValue.arr [])]]) ∧
    normalizeChats (.obj [("data", JValue.str "x")]) = some (.str "x") ∧
    normalizeChats (.obj [("other", JValue.null)]) = none ∧
    ingest (some c4resp) (.num 3) c4cfg = [] := by
  refine ⟨(claim4_normalizer.1 [("messages", JValue.arr [])]).1 rfl,
    (claim4_normalizer.1 [("data", JValue.str "x")]).2.1 rfl (JValue.str "x") rfl,
    (claim4_normalizer.1 [("other", JValue.null)]).2.2 rfl rfl,
    claim4_normalizer.2.2.2 (.num 3) rfl c4resp c4cfg⟩

theorem str_append_right_inj {a b c : String} (h : a ++ b = a ++ c) : b = c := by
  have hd := congrArg String.data h
  rw [String.data_append, String.data_append] at hd
  exact String.ext (List.append_cancel_left hd)

theorem chunkIdStr_inj {md : List (String × JValue)} {i j : Nat}
    (h : chunkIdStr md i = chunkIdStr md j) : i = j := by
  simp only [chunkIdStr] at h
  exact decRepr_inj (str_append_right_inj h)

def c3resp : LambdaResponse :=
  ⟨⟨"personal", Rat.mk' 1 10 (by norm_num) (by norm_num)⟩,
   ⟨"work", Rat.mk' 9 10 (by norm_num) (by norm_num)⟩⟩

def c3cfg : Config := ⟨.null, .null⟩

def c3chat : JValue := .obj [("chat_id", .str "A"),
  ("messages", .arr [.obj [("turn_id", .str "1"), ("message", .str "hi")]])]

def c3data : JValue := .arr [c3chat, c3chat]

/-- C3 counterexample: a batch holding two chats with the same `chat_id`
and the same `turn_id` produces two chunks with the identical `chunk_id`
`"A::1::0"`, so chunk ids are *not* pairwise distinct within a batch. -/
theorem claim3_counterexample :
    ((ingest (some c3resp) c3data c3cfg).map chunkIdOf = ["A::1::0", "A::1::0"]) ∧
    ¬ ((ingest (some c3resp) c3data c3cfg).map chunkIdOf).Nodup := by
  exact ⟨rfl, by decide⟩

/-- C3 (amended): each chunk's `chunk_id` is
`str(chat_id) ++ "::" ++ str(turn_id) ++ "::" ++ str(chunk_index)`, and the
`chunk_id` values are pairwise distinct within the chunks of one
ContentUnit (one flattened turn) — not across a whole batch, since chats
sharing `chat_id` and `turn_id` collide.  Determinism is immediate: the
embedding is a pure function of the input. -/
theorem claim3_chunk_ids {cfg : Config} {acc : String × ℚ}
    {chat : List (String × JValue)} {m : JValue} {du : Doc}
    (h : msgDoc cfg acc chat m = .ok du) :
    ((chunkDoc du).map chunkIdOf =
      (List.range (splitText 150 30 pipeSeps du.page_content.data).length).map
        (fun i => jstr (jgetD "chat_id" .null du.metadata) ++ "::" ++
          jstr (jgetD "turn_id" .null du.metadata) ++ "::" ++ decRepr i)) ∧
    ((chunkDoc du).map chunkIdOf).Nodup := by
  obtain ⟨mf, hmeta⟩ := msgDoc_meta h
  have hnone : jget "chunk_id" du.metadata = none := by
    rw [hmeta]; exact jget_mkMeta_chunk_id cfg acc chat mf
  have hmap := chunkDocsGo_map hnone (splitText 150 30 pipeSeps du.page_content.data) 0
  constructor
  · rw [chunkDoc, hmap]
    refine List.map_congr_left ?_
    intro i _
    rw [Nat.zero_add]
    rfl
  · rw [chunkDoc, hmap]
    refine (List.nodup_range _).map_on ?_
    intro i _ j _ heq
    have := chunkIdStr_inj heq
    omega

def c3wcfg : Config := ⟨.null, .null⟩

def c3wacc : String × ℚ := ("work", 1)

def c3wchat : List (String × JValue) := [("chat_id", .str "A")]

def c3wmsgFields : List (String × JValue) := [("turn_id", .str "1"), ("message", .str "hi")]

def c3wdu : Doc := ⟨"hi", mkMeta c3wcfg c3wacc c3wchat c3wmsgFields⟩

/-- Witness for the amended C3 on a concrete one-chunk turn. -/
theorem claim3_chunk_ids_witness :
    ((chunkDoc c3wdu).map chunkIdOf = ["A::1::0"]) ∧
    ((chunkDoc c3wdu).map chunkIdOf).Nodup := by
  have h : msgDoc c3wcfg c3wacc c3wchat (.obj c3wmsgFields) = .ok c3wdu := rfl
  have H := claim3_chunk_ids h
  refine ⟨?_, H.2⟩
  rw [H.1]
  rfl

/-- C5: with the configured `chunk_size`/`chunk_overlap`, chunking an
empty string (including a turn whose message text is missing and so falls
back to the empty string) yields no chunks, and chunking any non-empty
string shorter than `chunk_size` yields exactly one chunk equal to the
input.  (Chunker modelled from the spec, §4.3: the splitter class is
external library code not in `src/`.) -/
theorem claim5_chunking :
    splitTextCfg "" = [] ∧
    (∀ s : String, s ≠ "" → s.length < 150 → splitTextCfg s = [s]) ∧
    (∀ d : Doc, d.page_content = "" → chunkDoc d = []) ∧
    (∀ (cfg : Config) (acc : String × ℚ) (chat mf : List (String × JValue)),
      jget "message" mf = none →
      (msgDoc cfg acc chat (.obj mf)).map Doc.page_content = .ok "") := by
  refine ⟨rfl, ?_, ?_, ?_⟩
  · intro s hne hlen
    have hdne : s.data ≠ [] := by
      intro hc
      exact hne (String.ext (by rw [hc]))
    have hdlen : s.data.length ≤ 150 := by
      have h2 : s.data.length = s.length := rfl
      omega
    rw [splitTextCfg, splitText_short hdne hdlen]
    rfl
  · intro d hd
    rw [chunkDoc, hd]
    rfl
  · intro cfg acc chat mf h
    simp [msgDoc, contentOf, h, Except.map]

def c5cfg : Config := ⟨.null, .null⟩

/-- Witness for C5 on concrete inputs. -/
theorem claim5_chunking_witness :
    splitTextCfg "hi" = ["hi"] ∧
    chunkDoc (⟨"", []⟩ : Doc) = [] ∧
    (msgDoc c5cfg ("personal", 1) [] (.obj [])).map Doc.page_content = .ok "" := by
  exact ⟨claim5_chunking.2.1 "hi" (by decide) (by decide),
    claim5_chunking.2.2.1 ⟨"", []⟩ rfl,
    claim5_chunking.2.2.2 c5cfg ("personal", 1) [] [] rfl⟩

/-- C6: with the implemented separator list ending in the empty-string
(character-boundary) separator, every segment produced by the configured
chunker has length at most `chunk_size = 150`, unconditionally.  (Chunker
modelled from the spec, §4.3.) -/
theorem claim6_chunk_bound (s : String) : ∀ c ∈ splitTextCfg s, c.length ≤ 150 := by
  intro c hc
  rw [splitTextCfg] at hc
  obtain ⟨cs, hcs, rfl⟩ := List.mem_map.mp hc
  rw [splitText] at hcs
  have h1 : cs ∈ recChunk 150 30 pipeSeps s.data := List.mem_of_mem_filter hcs
  exact recChunk_bound (by norm_num) pipeSeps (by decide) s.data cs h1

/-- Witness for C6 on a concrete chunk. -/
theorem claim6_chunk_bound_witness :
    (("hi" : String) ∈ splitTextCfg "hi") ∧ ("hi" : String).length ≤ 150 := by
  have hm : ("hi" : String) ∈ splitTextCfg "hi" := by
    rw [show splitTextCfg "hi" = ["hi"] from rfl]
    exact List.mem_singleton_self _
  exact ⟨hm, claim6_chunk_bound "hi" "hi" hm⟩

/-- C7: every metadata record produced by ingestion stores the chat's
ownership value under `"chat_account"` and contains no key `"chat_user"`,
while the retriever's user-scope filter constrains `"chat_user"`; hence
for every non-empty `chat_user` filter value no pipeline-produced chunk
satisfies the filter predicate.  (The Pinecone `$eq` filter semantics is
modelled from the spec, §4.5.) -/
theorem claim7_filter_mismatch {r : LambdaResponse} {data : JValue} {cfg : Config}
    {d : Doc} (h : d ∈ ingest (some r) data cfg) :
    jget "chat_user" d.metadata = none ∧
    (∃ chat : List (String × JValue),
      jget "chat_account" d.metadata = some (jgetD "chat_user" cfg.chatUser chat)) ∧
    (∀ u : String, u ≠ "" → filterMatches u d = false) := by
  obtain ⟨chat, mf, i, hmeta⟩ := ingest_meta h
  have hnone : jget "chat_user" d.metadata = none := by
    rw [hmeta, jget_append_right (jget_mkMeta_chat_user cfg _ chat mf)]
    simp [jget]
  refine ⟨hnone, ⟨chat, ?_⟩, ?_⟩
  · rw [hmeta]
    exact jget_append_left (jget_mkMeta_chat_account cfg _ chat mf) _
  · intro u hu
    rw [filterMatches, if_neg hu, hnone]

def c7resp : LambdaResponse :=
  ⟨⟨"personal", Rat.mk' 1 10 (by norm_num) (by norm_num)⟩,
   ⟨"work", Rat.mk' 9 10 (by norm_num) (by norm_num)⟩⟩

def c7cfg : Config := ⟨.null, .null⟩

def c7data : JValue := .arr [.obj [("chat_id", .str "A"), ("chat_user", .str "alice"),
  ("messages", .arr [.obj [("turn_id", .str "1"), ("message", .str "hi")]])]]

def c7doc : Doc :=
  ⟨"hi", [("chat_engine", .null), ("chat_account", .str "alice"), ("chat_id", .str "A"),
    ("title", .null), ("chat_creation_time", .null), ("turn_id", .str "1"),
    ("author", .null), ("turn_timestamp", .null), ("accessibility", .str "work"),
    ("accessibility_confidence_score", .num (Rat.mk' 9 10 (by norm_num) (by norm_num))),
    ("chunk_index", .num ((0 : Nat) : ℚ)), ("chunk_id", .str "A::1::0")]⟩

/-- Witness for C7: a chunk ingested for user `"alice"` (stored under
`chat_account`) does not match the retriever's `chat_user` filter for
`"alice"`. -/
theorem claim7_filter_mismatch_witness :
    jget "chat_user" c7doc.metadata = none ∧ filterMatches "alice" c7doc = false := by
  have hmem : c7doc ∈ ingest (some c7resp) c7data c7cfg := by
    rw [show ingest (some c7resp) c7data c7cfg = [c7doc] from rfl]
    exact List.mem_singleton_self _
  exact ⟨(claim7_filter_mismatch hmem).1,
    (claim7_filter_mismatch hmem).2.2 "alice" (by decide)⟩

/-- C8: a chat record lacking a `"messages"` collection is skipped without
aborting processing of the remaining chat records in the batch, and the
number of ContentUnits produced is at most the sum of turn counts across
the chats that do carry a `"messages"` collection. -/
theorem claim8_skip_and_count :
    (∀ (cfg : Config) (acc : String × ℚ) (pre post : List JValue)
        (fields : List (String × JValue)), jget "messages" fields = none →
      buildDocsGo cfg acc (pre ++ JValue.obj fields :: post) =
        buildDocsGo cfg acc (pre ++ post)) ∧
    (∀ (cfg : Config) (acc : String × ℚ) (chats : List JValue) (docs : List Doc),
      buildDocsGo cfg acc chats = .ok docs →
      docs.length ≤ (chats.map turnCount).sum) :=
  ⟨fun _ _ pre post _ hf => buildDocsGo_skip hf pre post,
   fun _ _ _ _ h => le_of_eq (buildDocsGo_length h)⟩

def c8cfg : Config := ⟨.null, .null⟩

def c8acc : String × ℚ := ("personal", 1)

def c8bad : List (String × JValue) := [("chat_id", .str "B")]

def c8goodFields : List (String × JValue) :=
  [("messages", .arr [.obj [("message", .str "m1")]])]

def c8good : JValue := .obj c8goodFields

def c8docs : List Doc :=
  [⟨"m1", mkMeta c8cfg c8acc c8goodFields [("message", .str "m1")]⟩]

/-- Witness for C8: a messages-less chat before a valid chat is skipped,
and the produced unit count is bounded by the turn count. -/
theorem claim8_skip_and_count_witness :
    buildDocsGo c8cfg c8acc ([] ++ JValue.obj c8bad :: [c8good]) =
      buildDocsGo c8cfg c8acc ([] ++ [c8good]) ∧
    c8docs.length ≤ ([c8good].map turnCount).sum := by
  exact ⟨claim8_skip_and_count.1 c8cfg c8acc [] [c8good] c8bad rfl,
    claim8_skip_and_count.2 c8cfg c8acc [c8good] c8docs rfl⟩

def c9doc : Doc := ⟨"c9", []⟩

/-- C9 counterexample: the output length is *not* bounded by the number of
retrieved candidates — `"[1][01]"` against one candidate yields two
citations, because distinct digit strings with the same in-range value
each resolve. -/
theorem claim9_counterexample :
    (extractReferences "[1][01]".data [c9doc]).length = 2 ∧
    ([c9doc] : List Doc).length = 1 :=
  ⟨rfl, rfl⟩

/-- C9 (amended): citation extraction is total and never raises; a marker
digit string resolves to a citation exactly when its numeric value `n`
satisfies `1 ≤ n ≤ L` (`L` the candidate count), values outside that range
are silently discarded, every returned citation's marker value lies in
`1..L`, and the output length is bounded by the number of distinct marker
digit strings found (it can exceed `L`). -/
theorem claim9_extraction_safety (text : List Char) (docs : List Doc) :
    (∀ r ∈ extractReferences text docs, 1 ≤ refVal r ∧ refVal r ≤ docs.length) ∧
    ((extractReferences text docs).length ≤
      ((findMarkers text).map (fun ds => String.mk ds)).dedup.length) ∧
    (∀ s : String, (resolveRef docs s).isSome ↔
      (1 ≤ digitsToNat s.data ∧ digitsToNat s.data ≤ docs.length)) := by
  refine ⟨?_, ?_, fun s => resolveRef_isSome_iff docs s⟩
  · intro r hr
    have hr' := (extractReferences_perm text docs).mem_iff.mp hr
    obtain ⟨s, hs, hrs⟩ := List.mem_filterMap.mp hr'
    rw [refVal_resolved hs hrs]
    exact (resolveRef_some hrs).1
  · rw [(extractReferences_perm text docs).length_eq]
    exact List.length_filterMap_le _ _

def c9wdoc : Doc := ⟨"c9w", []⟩

def c9wref : Reference :=
  ⟨"[1]", .str "Unknown Title", .str "N/A", .str "N/A", .str "N/A"⟩

/-- Witness for the amended C9 on a concrete extraction. -/
theorem claim9_extraction_safety_witness :
    1 ≤ refVal c9wref ∧ refVal c9wref ≤ ([c9wdoc] : List Doc).length := by
  have hmem : c9wref ∈ extractReferences "[1]".data [c9wdoc] := by
    rw [show extractReferences "[1]".data [c9wdoc] = [c9wref] from rfl]
    exact List.mem_singleton_self _
  exact (claim9_extraction_safety "[1]".data [c9wdoc]).1 c9wref hmem

def c10doc : Doc := ⟨"chunk text",
  [("title", .str "T"), ("chat_id", .str "C1"), ("turn_id", .str "t1"),
   ("turn_timestamp", .str "2024-01-01T00:00:00Z")]⟩

/-- C10: evaluation at the failing input.  Ingestion stores the turn's
timestamp under the metadata key `"turn_timestamp"`, but citation
resolution reads the key `"timestamp"` (line 104), which is never written
— so the citation's timestamp field is always the fallback `"N/A"`, never
the candidate's turn timestamp. -/
theorem claim10_timestamp_bug :
    ((extractReferences "[1]".data [c10doc]).map (fun r => jstr r.timestamp) = ["N/A"]) ∧
    jgetD "turn_timestamp" .null c10doc.metadata = .str "2024-01-01T00:00:00Z" ∧
    ("N/A" : String) ≠ "2024-01-01T00:00:00Z" := by
  exact ⟨rfl, rfl, by decide⟩

end ChatRAG
